import Mathlib

/-!
Verification development for the `rnenv` real-number reduction kernel
(`rnenv/rn/rnreduce.py`, with helpers from `rnenv/rn/mathfuncs/funcs.py` and
`rnenv/rn/linearsops.py`).

A unit is an integer triple `(coefficient, radicand, index)`; a linear is a
list of units; a real number is a pair of linears (numerator, denominator).

Modelling conventions:
* Python integers are `ℤ` (the source mixes Python ints and numpy int64;
  we do not model int64 overflow, all claim inputs are tiny).
* Python `//` and `%` are `Int.fdiv` / `Int.fmod` (floor semantics),
  `int(x)` truncation toward zero is `Int.tdiv`-based.
* Values that Python computes as floats (they arise from `x ** negative`,
  `a / b` and `round(_, 5)`) are modelled as exact integer fractions
  `ℤ × ℤ` (numerator, denominator).  At every input where a theorem below
  evaluates them the Python float arithmetic is exact, so the models agree.
* Exceptions (`ValueError` for invalid roots, `ZeroDivisionError`) are
  modelled with `Except Err`.
-/

/-- Error kinds surfaced by the reduction code: `ValueError('Invalid root…')`
raised by `__IRR.radical_exc` and `ZeroDivisionError` raised by `reduce_rn`
or by Python division by zero inside `are_proportional`. -/
inductive Err where
  | invalidRoot : Err
  | zeroDivision : Err
deriving DecidableEq, Repr

deriving instance DecidableEq for Except

/-- A unit `(coefficient, radicand, index)` as stored in the integer matrices. -/
abbrev Unit3 := ℤ × ℤ × ℤ

/-- An exact fraction `(numerator, denominator)`, modelling a Python number
that may have become a float (the denominator is 1 while the Python value is
still an int). -/
abbrev Frac := ℤ × ℤ

/-- Product of two fractions (no normalisation; models exact float product). -/
def fmul (a b : Frac) : Frac := (a.1 * b.1, a.2 * b.2)

/-- Product of a fraction and an integer. -/
def fmulInt (a : Frac) (z : ℤ) : Frac := (a.1 * z, a.2)

/-- Integer power with a possibly negative integer exponent, as a fraction:
models Python `f ** k`, which is an int for `k ≥ 0` and a float for `k < 0`. -/
def fpow (f : ℕ) (k : ℤ) : Frac :=
  if 0 ≤ k then ((f : ℤ) ^ k.toNat, 1) else (1, (f : ℤ) ^ (-k).toNat)

/-- Truncation toward zero of a fraction, modelling Python `int(x)`
(the denominators produced below are positive). -/
def ftrunc (a : Frac) : ℤ := Int.tdiv a.1 a.2

/-- Rational value denoted by a fraction (used only in statements). -/
def fval (a : Frac) : ℚ := (a.1 : ℚ) / (a.2 : ℚ)

/-- Models `mathfuncs.funcs.gcd`: `1` if `0` occurs in the list, otherwise
`reduce(math.gcd, list)`; `math.gcd` is `Int.gcd` (nonnegative), and the
fold starts from the first element, which is returned as-is for a
singleton list exactly as `functools.reduce` does. -/
def gcdList (l : List ℤ) : ℤ :=
  if 0 ∈ l then 1
  else
    match l with
    | [] => 1
    | x :: xs => xs.foldl (fun a b => (Int.gcd a b : ℤ)) x

/-- Models the trial-division loop of `mathfuncs.funcs.factorization_generator`
for `2 ≤ n`: starting from candidate `i`, repeatedly divide out `i`, yield the
remaining cofactor once no candidate up to its square root remains (the source
compares `i` against `sqrt(original n) + 2`; both cutoffs yield the prime
factorisation of `n` in ascending order with multiplicity).  `fuel` bounds the
recursion; `n + 2` steps always suffice (the candidate passes the square root
of `n` after at most `√n + log₂ n` steps). -/
def fz_gen (fuel : ℕ) (n : ℕ) (i : ℕ) : List ℕ :=
  match fuel with
  | 0 => []
  | fuel + 1 =>
    if n ≤ 1 then []
    else if n < i * i then [n]
    else if n % i = 0 then i :: fz_gen fuel (n / i) i
    else fz_gen fuel n (i + 1)

/-- Models `mathfuncs.funcs.factorization`: the factor ↦ multiplicity mapping
of `abs(n)`, as an association list in ascending (= Python dict insertion)
order.  For `abs(n) ∈ {0, 1}` the generator degenerates to yielding `abs(n)`
itself once, giving the mapping `{abs(n): 1}`. -/
def factorizedList (n : ℤ) : List (ℕ × ℤ) :=
  let m := n.natAbs
  if m ≤ 1 then [(m, 1)]
  else
    let fs := fz_gen (m + 2) m 2
    fs.dedup.map (fun p => (p, (fs.count p : ℤ)))

/-- Models `mathfuncs.funcs.build_factorized`: `int(∏ factor ** exponent)`.
Python computes the product as an int while all exponents are nonnegative and
as a float otherwise; here it is an exact fraction, truncated by `int(_)`. -/
def build_factorized (l : List (ℕ × ℤ)) : ℤ :=
  ftrunc (l.foldl (fun acc fe => fmul acc (fpow fe.1 fe.2)) ((1 : ℤ), (1 : ℤ)))

/-- Models `__IRR.radical_exc` (rnreduce.py lines 345-365): returns the raised
error, if any.  Python checks `not index % 2 and rad < 0` first (`index % 2`
is a floor modulus, which for the positive modulus 2 coincides with
`Int.emod`, and also catches `index == 0` with `rad < 0`), then
`index == 0`, then `index < 0 and rad == 0`. -/
def radical_exc (rad idx : ℤ) : Option Err :=
  if Int.emod idx 2 = 0 ∧ rad < 0 then some .invalidRoot
  else if idx = 0 then some .invalidRoot
  else if idx < 0 ∧ rad = 0 then some .invalidRoot
  else none

/-- Models `__IRR.special_cases` (rnreduce.py lines 367-388): fold the radicand
into the coefficient when `index == 1` or `radicand ∈ {0, 1, -1}`. -/
def special_cases (c : Frac) (rad idx : ℤ) : Frac × ℤ × ℤ :=
  if idx = 1 then (fmulInt c rad, 1, 1)
  else if rad = 0 ∨ rad = 1 ∨ rad = -1 then (fmulInt c rad, 1, 1)
  else (c, rad, idx)

/-- Models the `parse to bring factor out of the root` loop of
`__reduce_integer_unit` (rnreduce.py lines 416-420): for each stored factor
with `abs(index) < exponent`, multiply `coefficient` by
`factor ** (exponent // index)` and replace the exponent by
`exponent % index` (Python floor division and modulus). -/
def extract_loop (j : ℤ) (l : List (ℕ × ℤ)) (c : Frac) : List (ℕ × ℤ) × Frac :=
  match l with
  | [] => ([], c)
  | (f, e) :: rest =>
    if |j| < e then
      let c' := fmul c (fpow f (Int.fdiv e j))
      let r := extract_loop j rest c'
      ((f, Int.fmod e j) :: r.1, r.2)
    else
      let r := extract_loop j rest c
      ((f, e) :: r.1, r.2)

/-- Models the body of `__reduce_integer_unit` after validation
(rnreduce.py lines 407-427): special cases, exponents/index gcd reduction,
perfect-power extraction, radicand rebuild with sign restore, final special
cases. -/
def reduce_unit_core (c r j : ℤ) : Frac × ℤ × ℤ :=
  let u1 := special_cases ((c : ℤ), (1 : ℤ)) r j
  let c1 := u1.1
  let r1 := u1.2.1
  let j1 := u1.2.2
  let sign_flag := r1 < 0
  let fz := factorizedList r1
  let g := gcdList (fz.map (fun fe => fe.2) ++ [j1])
  let fz2 := if g ≠ 1 then fz.map (fun fe => (fe.1, Int.tdiv fe.2 g)) else fz
  let j2 := if g ≠ 1 then Int.fdiv j1 g else j1
  let ec := extract_loop j2 fz2 c1
  let r2 := if sign_flag then build_factorized ec.1 * (-1) else build_factorized ec.1
  special_cases ec.2 r2 j2

/-- Models `__reduce_integer_unit` (rnreduce.py lines 391-427): zero
coefficient returns `[0, 0, 1]` immediately, then `__IRR.radical_exc`
validates the root, then the reduction body runs (it raises nothing). -/
def reduce_integer_unit (c r j : ℤ) : Except Err (Frac × ℤ × ℤ) :=
  if c = 0 then .ok (((0 : ℤ), (1 : ℤ)), (0 : ℤ), (1 : ℤ))
  else
    match radical_exc r j with
    | some e => .error e
    | none => .ok (reduce_unit_core c r j)

/-- Models the write-back `linear[p] = __reduce_unit(unit)` in
`__reduce_linear` (rnreduce.py lines 251-252): the reduced unit is stored in
an int64 row, so a float coefficient is cast with truncation toward zero. -/
def store_unit (u : Unit3) : Except Err Unit3 :=
  match reduce_integer_unit u.1 u.2.1 u.2.2 with
  | .error e => .error e
  | .ok v => .ok (ftrunc v.1, v.2.1, v.2.2)

/-- Reduce every unit of a linear in order, propagating the first error,
modelling the `for p, unit in enumerate(linear)` loop of `__reduce_linear`. -/
def reduce_units : List Unit3 → Except Err (List Unit3)
  | [] => .ok []
  | u :: rest =>
    match store_unit u with
    | .error e => .error e
    | .ok v =>
      match reduce_units rest with
      | .error e => .error e
      | .ok vs => .ok (v :: vs)

/-- Sum of the coefficients of all units with the given radicand and index,
modelling `sum(linear[logical_and(linear[:,1] == one, linear[:,2] == two)][:,0])`. -/
def groupSum (us : List Unit3) (one two : ℤ) : ℤ :=
  match us with
  | [] => 0
  | u :: rest =>
    (if u.2.1 = one ∧ u.2.2 = two then u.1 else 0) + groupSum rest one two

/-- Sorted list of the distinct values of a column, modelling `numpy.unique`. -/
def sortedDedup (l : List ℤ) : List ℤ :=
  (List.insertionSort (fun a b => a ≤ b) l).dedup

/-- Inner loop of the merging algorithm of `__reduce_linear`
(rnreduce.py lines 259-265): for one fixed radicand value, stack a row
`[s, one, two]` for every index value whose group sum `s` is nonzero. -/
def merge_rows_inner (us : List Unit3) (one : ℤ) : List ℤ → List Unit3
  | [] => []
  | two :: rest =>
    let s := groupSum us one two
    if s ≠ 0 then (s, one, two) :: merge_rows_inner us one rest
    else merge_rows_inner us one rest

/-- Outer loop of the merging algorithm of `__reduce_linear`: iterate the
sorted distinct radicand values, then the sorted distinct index values. -/
def merge_rows_outer (us : List Unit3) (twos : List ℤ) : List ℤ → List Unit3
  | [] => []
  | one :: rest => merge_rows_inner us one twos ++ merge_rows_outer us twos rest

/-- All rows stacked by the merging algorithm of `__reduce_linear` (the rows
following the `[0, 0, 0]` seed row of `arr`). -/
def merge_rows (us : List Unit3) : List Unit3 :=
  merge_rows_outer us (sortedDedup (us.map (fun u => u.2.2)))
    (sortedDedup (us.map (fun u => u.2.1)))

/-- Sort key of `arr[arr[:, 2].argsort()]`: the index column. -/
def le_col2 (a b : Unit3) : Prop := a.2.2 ≤ b.2.2

instance : DecidableRel le_col2 :=
  fun a b => inferInstanceAs (Decidable (a.2.2 ≤ b.2.2))

instance : IsTotal Unit3 le_col2 := ⟨fun a b => le_total a.2.2 b.2.2⟩

instance : IsTrans Unit3 le_col2 := ⟨fun _ _ _ h1 h2 => le_trans h1 h2⟩

/-- Sort key of `arr[arr[:, 1].argsort()]`: the radicand column. -/
def le_col1 (a b : Unit3) : Prop := a.2.1 ≤ b.2.1

instance : DecidableRel le_col1 :=
  fun a b => inferInstanceAs (Decidable (a.2.1 ≤ b.2.1))

instance : IsTotal Unit3 le_col1 := ⟨fun a b => le_total a.2.1 b.2.1⟩

instance : IsTrans Unit3 le_col1 := ⟨fun _ _ _ h1 h2 => le_trans h1 h2⟩

/-- Models `__reduce_linear` (rnreduce.py lines 218-272): reduce each unit in
place, merge groups with equal (radicand, index), return the zero linear
`[[0, 0, 1]]` if no nonzero group remains, otherwise sort the stacked array
(seeded with the row `[0, 0, 0]`) first by the index column and then by the
radicand column, and drop the first row.  numpy's `argsort` (default
`kind='quicksort'`, an introsort) guarantees only that each pass sorts its
own key column; it is not stable, so how the final pass orders rows that
share a radicand is unspecified for large arrays (numpy falls back to an
insertion sort only below its ~16-element cutoff).  The two passes are
modelled here as insertion sorts — one admissible implementation, exact for
the small arrays of every concrete evaluation below; the general theorem
about this function (C5) asserts only the radicand-sortedness of the final
pass, which every admissible `argsort` implementation provides. -/
def reduce_linear (lin : List Unit3) : Except Err (List Unit3) :=
  match reduce_units lin with
  | .error e => .error e
  | .ok us =>
    let rows := merge_rows us
    if rows = [] then .ok [((0 : ℤ), (0 : ℤ), (1 : ℤ))]
    else
      let arr := ((0 : ℤ), (0 : ℤ), (0 : ℤ)) :: rows
      let arr2 := List.insertionSort le_col2 arr
      let arr3 := List.insertionSort le_col1 arr2
      .ok arr3.tail

/-- Check loop of `mathfuncs.funcs.are_proportional`: compare each ratio
`n / m` with the first ratio `a0 / b0`.  Python divides floats and compares;
this model cross-multiplies (equal exact ratios give equal correctly-rounded
float quotients, so a true equality here is a true equality there), and it
raises `ZeroDivisionError` exactly where Python divides by zero.  `all`
consumes the lazy `map`, so a `False` comparison stops the iteration before
a later zero denominator is touched. -/
def proportional_chk (a0 b0 : ℤ) : List (ℤ × ℤ) → Except Err Bool
  | [] => .ok true
  | (n, m) :: rest =>
    if m = 0 then .error .zeroDivision
    else if n * b0 = a0 * m then proportional_chk a0 b0 rest
    else .ok false

/-- Models `mathfuncs.funcs.are_proportional` (funcs.py lines 93-109). -/
def are_proportional (a b : List ℤ) : Except Err Bool :=
  if b.headI = 0 then .error .zeroDivision
  else proportional_chk a.headI b.headI (a.zip b)

/-- Round half to even of `p / q` (`q` is made positive first), modelling
Python `round`. -/
def round_half_even (p q : ℤ) : ℤ :=
  let p' := if q < 0 then -p else p
  let q' := if q < 0 then -q else q
  let f := Int.fdiv p' q'
  let r := p' - q' * f
  if 2 * r < q' then f
  else if q' < 2 * r then f + 1
  else if Int.fmod f 2 = 0 then f else f + 1

/-- Numerator of `round(a / b, 5)` over the fixed denominator `100000`,
modelling the `round(factor, 5)` test of `__reduce_num_den`. -/
def round_5 (a b : ℤ) : ℤ := round_half_even (100000 * a) b

/-- Models `fractions.Fraction(a, b)`: reduce to lowest terms with a positive
denominator (`b ≠ 0` wherever this is reached). -/
def mkFraction (a b : ℤ) : ℤ × ℤ :=
  let g : ℤ := Int.gcd a b
  let a' := Int.tdiv a g
  let b' := Int.tdiv b g
  if b' < 0 then (-a', -b') else (a', b')

/-- Models `__reduce_num_den` (rnreduce.py lines 150-184): divide all
coefficients by their collective gcd, then, when numerator and denominator
have the same length, identical (radicand, index) patterns and proportional
coefficients, collapse to `factor = num[0] / den[0]`: if
`round(factor, 5) == int(factor)` the result is `[[int(factor),1,1]]` over
`[[1,1,1]]`, otherwise `Fraction(num[0], den[0])` split into numerator and
denominator.  This is the correspondence step, operating on the
coefficient-divided matrices. -/
def reduce_num_den_core (num2 den2 : List Unit3) : Except Err (List Unit3 × List Unit3) :=
  if num2.length = den2.length then
    if num2.map (fun u => u.2) = den2.map (fun u => u.2) then
      match are_proportional (num2.map fun u => u.1) (den2.map fun u => u.1) with
      | .error e => .error e
      | .ok true =>
        let a := (num2.headI).1
        let b := (den2.headI).1
        if round_5 a b = 100000 * Int.tdiv a b then
          .ok ([(Int.tdiv a b, (1 : ℤ), (1 : ℤ))], [((1 : ℤ), (1 : ℤ), (1 : ℤ))])
        else
          let fr := mkFraction a b
          .ok ([(fr.1, (1 : ℤ), (1 : ℤ))], [(fr.2, (1 : ℤ), (1 : ℤ))])
      | .ok false => .ok (num2, den2)
    else .ok (num2, den2)
  else .ok (num2, den2)

/-- Models `__reduce_num_den` proper: the collective-gcd division of all
coefficients followed by the correspondence step above. -/
def reduce_num_den (num den : List Unit3) : Except Err (List Unit3 × List Unit3) :=
  let g := gcdList (num.map (fun u => u.1) ++ den.map (fun u => u.1))
  let num2 := if g ≠ 1 then num.map (fun u => (Int.fdiv u.1 g, u.2)) else num
  let den2 := if g ≠ 1 then den.map (fun u => (Int.fdiv u.1 g, u.2)) else den
  reduce_num_den_core num2 den2

/-- Models `linearsops.linears_product` (linearsops.py lines 9-56): for every
pair of units (row-major), a pointwise product when either unit has
radicand 1 and index 1, otherwise the radical product with the lcm of the
indexes (`numpy.lcm` is nonnegative; numpy rejects negative integer
exponents, and the guarded call sites only produce nonnegative ones). -/
def linears_product (a b : List Unit3) : List Unit3 :=
  a.flatMap (fun u => b.map (fun v =>
    if (u.2.1 = 1 ∧ u.2.2 = 1) ∨ (v.2.1 = 1 ∧ v.2.2 = 1) then
      (u.1 * v.1, u.2.1 * v.2.1, u.2.2 * v.2.2)
    else
      let L : ℤ := (Int.lcm u.2.2 v.2.2 : ℤ)
      (u.1 * v.1,
       u.2.1 ^ (Int.fdiv L u.2.2).toNat * v.2.1 ^ (Int.fdiv L v.2.2).toNat,
       L)))

/-- Models `linearsops.linear_conjugate` (linearsops.py lines 79-102): negate
the coefficient of the second unit (the source assumes a length-2 linear). -/
def linear_conjugate (a : List Unit3) : List Unit3 :=
  match a with
  | u :: v :: rest => u :: (-v.1, v.2.1, v.2.2) :: rest
  | _ => a

/-- Models `__rationalize_num_den` (rnreduce.py lines 187-215): a length-1
denominator is cleared by multiplying the numerator with
`[1, radicand, index - 1]`; a length-2 denominator with all indexes < 3 is
cleared by multiplying the numerator with the conjugate and replacing the
denominator with `(c₀² · r₀) - (c₁² · r₁)` directly. -/
def rationalize_num_den (num den : List Unit3) : Except Err (List Unit3 × List Unit3) :=
  match den with
  | [d] =>
    match reduce_linear (linears_product num [((1 : ℤ), d.2.1, d.2.2 - 1)]) with
    | .error e => .error e
    | .ok num2 => .ok (num2, [(d.2.1, (1 : ℤ), (1 : ℤ))])
  | d0 :: d1 :: _ =>
    if den.all (fun u => decide (u.2.2 < 3)) then
      match reduce_linear (linears_product num (linear_conjugate den)) with
      | .error e => .error e
      | .ok num2 =>
        .ok (num2, [(d0.1 ^ 2 * d0.2.1 - d1.1 ^ 2 * d1.2.1, (1 : ℤ), (1 : ℤ))])
    else .ok (num, den)
  | [] => .ok (num, den)

/-- Models `__parse_num_den` (rnreduce.py lines 72-127): reduce both linears,
cross-reduce them, and rationalize the denominator when it contains an
index above 1 and has fewer than 3 units. -/
def parse_num_den (num den : List Unit3) : Except Err (List Unit3 × List Unit3) :=
  match reduce_linear num with
  | .error e => .error e
  | .ok num1 =>
    match reduce_linear den with
    | .error e => .error e
    | .ok den1 =>
      match reduce_num_den num1 den1 with
      | .error e => .error e
      | .ok nd =>
        if (nd.2.any (fun u => decide (1 < u.2.2))) = true ∧ nd.2.length < 3 then
          rationalize_num_den nd.1 nd.2
        else .ok nd

/-- Models `fill_size_difference` (rnreduce.py lines 50-69).  The source
computes `diff = abs(len(a) - len(b))`, builds
`array([[0, 1, 1] * diff]).resize((3,))` — which is the single row
`[0, 1, 1]` whenever `diff ≥ 1` — and, because `diff` is an absolute value,
the `diff < 0` branch is dead: whenever the lengths differ, exactly one
`[0, 1, 1]` row is appended to `b`, whichever of the two is shorter. -/
def fill_size_difference (a b : List Unit3) : List Unit3 × List Unit3 :=
  if a.length = b.length then (a, b)
  else (a, b ++ [((0 : ℤ), (1 : ℤ), (1 : ℤ))])

/-- Models `reduce_rn` (rnreduce.py lines 13-47): parse numerator and
denominator, raise `ZeroDivisionError` when the reduced denominator starts
with coefficient 0, reset the denominator to the flat vector `[1, 1, 1]`
when the reduced numerator starts with coefficient 0 (that flat vector has
`len == 3`, so `fill_size_difference` appends a `[0, 1, 1]` row to it
unless the numerator also has 3 rows, and `vstack` then treats it as the
single row `(1, 1, 1)`), and finally fill the size difference. -/
def reduce_rn (num den : List Unit3) : Except Err (List Unit3 × List Unit3) :=
  match parse_num_den num den with
  | .error e => .error e
  | .ok nd =>
    if (nd.2.headI).1 = 0 then .error .zeroDivision
    else if (nd.1.headI).1 = 0 then
      if nd.1.length = 3 then .ok (nd.1, [((1 : ℤ), (1 : ℤ), (1 : ℤ))])
      else .ok (nd.1, [((1 : ℤ), (1 : ℤ), (1 : ℤ)), ((0 : ℤ), (1 : ℤ), (1 : ℤ))])
    else .ok (fill_size_difference nd.1 nd.2)

/-! ### Claim theorems -/

/-- C10: reducing a unit with coefficient 0 succeeds and returns the zero
unit for every radicand and index, including invalid-root combinations
(`index = 0`, even index with negative radicand, negative index with zero
radicand), because the zero-coefficient early return precedes the call to
`__IRR.radical_exc`. -/
theorem C10_zero_coefficient_short_circuits_validation (r j : ℤ) :
    reduce_integer_unit 0 r j = .ok ((0, 1), 0, 1) := rfl

/-- C1 (code bug): value preservation fails for the unit `(1, 8, -2)`.
The extraction step computes `coefficient = 2 ** (3 // -2) = 0.25` and the
residual exponent `3 % -2 = -1`, so `build_factorized` computes
`int(2 ** -1) = 0` and the final special case folds the unit to the zero
triple `[0.0, 1, 1]` (coefficient `0.25 * 0`, modelled as the fraction
`(0, 4)`), although the value denoted before reduction,
`1 * 8 ** (1 / -2)`, is nonzero. -/
theorem C1_negative_index_value_not_preserved :
    reduce_integer_unit 1 8 (-2) = .ok ((0, 4), 1, 1) ∧
    fval (0, 4) = 0 ∧
    (1 : ℝ) * (8 : ℝ) ^ ((1 : ℝ) / (-2 : ℝ)) ≠ 0 := by
  refine ⟨by decide, by norm_num [fval], ?_⟩
  have h8 : (0 : ℝ) < 8 := by norm_num
  exact mul_ne_zero one_ne_zero (ne_of_gt (Real.rpow_pos_of_pos h8 _))

/-- C2 (counterexample): the unit `(1, 12, 2)` reduces to itself, leaving the
prime factor 2 with exponent 2 ≥ index 2 inside the radicand; the claimed
extraction of every factor with exponent ≥ index would have produced
`(2, 3, 2)`.  The extraction loop fires only for exponents strictly greater
than the absolute index (`abs(unit[2]) < factorized[f]`). -/
theorem C2_perfect_square_factor_retained :
    reduce_integer_unit 1 12 2 = .ok ((1, 1), 12, 2) ∧
    Nat.Prime 2 ∧ (2 : ℤ) ^ 2 ∣ 12 ∧
    reduce_integer_unit 1 12 2 ≠ .ok ((2, 1), 3, 2) := by
  exact ⟨by decide, by norm_num, by decide, by decide⟩

/-- C3 (code bug): the direct-ratio collapse is not exact.  For the
numerator `[(1000001, 1, 1)]` and denominator `[(1000000, 1, 1)]` the ratio
`1.000001` satisfies `round(factor, 5) == int(factor)`, so the fraction is
collapsed to `[(1, 1, 1)] / [(1, 1, 1)]`, changing the denoted value from
`1000001/1000000` to `1`. -/
theorem C3_ratio_collapse_not_exact :
    reduce_num_den [((1000001 : ℤ), 1, 1)] [((1000000 : ℤ), 1, 1)] =
      .ok ([(1, 1, 1)], [(1, 1, 1)]) ∧
    (1000001 : ℚ) / 1000000 ≠ (1 : ℚ) / 1 := by
  refine ⟨by decide, ?_⟩
  norm_num

/-- C4 (counterexample): the canonical zero triple produced by the code is
`(0, 0, 1)` (radicand 0), not the claimed `(0, 1, 1)`: reducing the unit
`(0, 5, 2)` returns `[0, 0, 1]`, and reducing the linear
`[(1, 1, 1), (-1, 1, 1)]`, whose single group sums to zero, returns
`[[0, 0, 1]]`. -/
theorem C4_zero_shape_counterexample :
    reduce_integer_unit 0 5 2 = .ok ((0, 1), 0, 1) ∧
    reduce_linear [((1 : ℤ), 1, 1), ((-1 : ℤ), 1, 1)] = .ok [(0, 0, 1)] ∧
    (((0 : ℤ), (0 : ℤ), (1 : ℤ)) : Unit3) ≠ ((0 : ℤ), (1 : ℤ), (1 : ℤ)) := by
  exact ⟨by decide, by decide, by decide⟩

/-- Ordering by the canonical key `(index, radicand)` that the specification
asserts for C5 (stated from the spec's words, to be compared with the
code's order). -/
def idx_rad_le (a b : Unit3) : Prop :=
  a.2.2 < b.2.2 ∨ (a.2.2 = b.2.2 ∧ a.2.1 ≤ b.2.1)

/-- C5 (counterexample): reducing `[(1, 2, 3), (1, 3, 2)]` returns the two
units in the order `(1, 2, 3), (1, 3, 2)`: the unit with the larger index 3
(and smaller radicand 2) comes first, violating the claimed
`(index, radicand)` ascending order. -/
theorem C5_not_sorted_by_index_first :
    reduce_linear [((1 : ℤ), 2, 3), ((1 : ℤ), 3, 2)] = .ok [(1, 2, 3), (1, 3, 2)] ∧
    ¬ idx_rad_le ((1 : ℤ), (2 : ℤ), (3 : ℤ)) ((1 : ℤ), (3 : ℤ), (2 : ℤ)) := by
  constructor
  · decide
  · show ¬ ((3 : ℤ) < 2 ∨ ((3 : ℤ) = 2 ∧ (2 : ℤ) ≤ 3))
    decide

/-- C7: rationalizing the numerator `[(1, 1, 1)]` against the binomial
denominator `[(4, 1, 1), (2, 2, 2)]` (that is, `1 / (4 + 2√2)`) produces the
conjugate-product numerator `[(4, 1, 1), (-2, 2, 2)]` and the scalar
denominator `[(8, 1, 1)]`, the latter computed directly as
`4²·1 - 2²·2 = 8` without multiplying the denominator by its conjugate. -/
theorem C7_binomial_rationalization_example :
    rationalize_num_den [((1 : ℤ), 1, 1)] [((4 : ℤ), 1, 1), ((2 : ℤ), 2, 2)] =
      .ok ([(4, 1, 1), (-2, 2, 2)], [(8, 1, 1)]) := by
  decide

/-- C9 (code bug): `fill_size_difference` does not equalize the lengths.
For the numerator `[(1, 1, 1)]` (1 unit) and the denominator
`[(1, 1, 1), (1, 2, 2), (1, 3, 2)]` (3 units, not rationalizable), the
reduction succeeds but appends a single `(0, 1, 1)` filler row to the
denominator — which was already the longer side — leaving lengths 1 and 4. -/
theorem C9_padding_leaves_unequal_lengths :
    reduce_rn [((1 : ℤ), 1, 1)] [((1 : ℤ), 1, 1), ((1 : ℤ), 2, 2), ((1 : ℤ), 3, 2)] =
      .ok ([(1, 1, 1)], [(1, 1, 1), (1, 2, 2), (1, 3, 2), (0, 1, 1)]) ∧
    ([((1 : ℤ), 1, 1)] : List Unit3).length ≠
      ([((1 : ℤ), 1, 1), (1, 2, 2), (1, 3, 2), (0, 1, 1)] : List Unit3).length := by
  exact ⟨by decide, by decide⟩

/-- Root validation succeeds exactly when the index is nonzero, the index is
not even with a negative radicand, and the index is not negative with a zero
radicand. -/
theorem radical_exc_none_iff (rad idx : ℤ) :
    radical_exc rad idx = none ↔
      ¬ (idx = 0 ∨ (Even idx ∧ rad < 0) ∨ (idx < 0 ∧ rad = 0)) := by
  unfold radical_exc
  constructor
  · intro h hcond
    split at h
    · exact absurd h (by simp)
    · split at h
      · exact absurd h (by simp)
      · split at h
        · exact absurd h (by simp)
        · rename_i hA hB hC
          rcases hcond with h0 | ⟨hev, hneg⟩ | hzero
          · exact hB h0
          · exact hA ⟨Int.even_iff.mp hev, hneg⟩
          · exact hC hzero
  · intro hn
    push_neg at hn
    obtain ⟨h0, hne, hnz⟩ := hn
    have hC1 : ¬ (Int.emod idx 2 = 0 ∧ rad < 0) := by
      rintro ⟨hm, hr⟩
      exact absurd hr (not_lt.mpr (hne (Int.even_iff.mpr hm)))
    have hC3 : ¬ (idx < 0 ∧ rad = 0) := by
      rintro ⟨hj, hr⟩
      exact hnz hj hr
    rw [if_neg hC1, if_neg h0, if_neg hC3]

/-- Root validation only ever raises the invalid-root error. -/
theorem radical_exc_some (rad idx : ℤ) {e : Err}
    (h : radical_exc rad idx = some e) : e = .invalidRoot := by
  unfold radical_exc at h
  split at h
  · exact (Option.some_inj.mp h).symm
  · split at h
    · exact (Option.some_inj.mp h).symm
    · split at h
      · exact (Option.some_inj.mp h).symm
      · exact absurd h (by simp)

/-- C8: for every integer unit with nonzero coefficient, reduction fails —
with the invalid-root error — exactly when the index is 0, or the index is
even and the radicand negative, or the index is negative and the radicand
zero; every other such unit reduces without raising. -/
theorem C8_invalid_root_iff (c r j : ℤ) (hc : c ≠ 0) :
    (reduce_integer_unit c r j = .error .invalidRoot ↔
      (j = 0 ∨ (Even j ∧ r < 0) ∨ (j < 0 ∧ r = 0))) ∧
    (¬ (j = 0 ∨ (Even j ∧ r < 0) ∨ (j < 0 ∧ r = 0)) →
      ∃ res, reduce_integer_unit c r j = .ok res) := by
  unfold reduce_integer_unit
  rw [if_neg hc]
  cases hre : radical_exc r j with
  | none =>
    have hcond := (radical_exc_none_iff r j).mp hre
    exact ⟨by simp [hcond], fun _ => ⟨_, rfl⟩⟩
  | some e =>
    have he : e = Err.invalidRoot := radical_exc_some r j hre
    subst he
    have hcond : (j = 0 ∨ (Even j ∧ r < 0) ∨ (j < 0 ∧ r = 0)) := by
      by_contra hn
      exact absurd hre (by rw [(radical_exc_none_iff r j).mpr hn]; simp)
    exact ⟨by simp [hcond], fun hn => absurd hcond hn⟩

/-- C8 witness: the unit `(1, 2, 2)` satisfies none of the invalid-root
conditions and reduces without raising. -/
theorem C8_invalid_root_iff_witness :
    (reduce_integer_unit 1 2 2 = .error .invalidRoot ↔
      ((2 : ℤ) = 0 ∨ (Even (2 : ℤ) ∧ (2 : ℤ) < 0) ∨ ((2 : ℤ) < 0 ∧ (2 : ℤ) = 0))) ∧
    (¬ ((2 : ℤ) = 0 ∨ (Even (2 : ℤ) ∧ (2 : ℤ) < 0) ∨ ((2 : ℤ) < 0 ∧ (2 : ℤ) = 0)) →
      ∃ res, reduce_integer_unit 1 2 2 = .ok res) :=
  C8_invalid_root_iff 1 2 2 (by decide)

/-- When every group sum for a fixed radicand value is zero, the inner
merging loop stacks nothing. -/
theorem merge_rows_inner_eq_nil (us : List Unit3) (one : ℤ) (twos : List ℤ)
    (h : ∀ two, groupSum us one two = 0) : merge_rows_inner us one twos = [] := by
  induction twos with
  | nil => rfl
  | cons two rest ih => simp [merge_rows_inner, h two, ih]

/-- When every group sum is zero, the merging loops stack nothing. -/
theorem merge_rows_outer_eq_nil (us : List Unit3) (twos : List ℤ) (ones : List ℤ)
    (h : ∀ one two, groupSum us one two = 0) : merge_rows_outer us twos ones = [] := by
  induction ones with
  | nil => rfl
  | cons one rest ih =>
    simp [merge_rows_outer, merge_rows_inner_eq_nil us one twos (h one), ih]

/-- C4 (amended): reducing a unit with coefficient 0 returns the triple
`(0, 0, 1)` — not `(0, 1, 1)` — and reducing a linear in which every
(radicand, index) group of the unit-reduced rows sums to zero returns the
canonical zero linear `[(0, 0, 1)]` — not `[(0, 1, 1)]`. -/
theorem C4_zero_reductions_shape :
    (∀ r j : ℤ, reduce_integer_unit 0 r j = .ok ((0, 1), 0, 1)) ∧
    (∀ lin us : List Unit3, reduce_units lin = .ok us →
      (∀ one two : ℤ, groupSum us one two = 0) →
      reduce_linear lin = .ok [(0, 0, 1)]) := by
  refine ⟨fun r j => rfl, fun lin us hus hzero => ?_⟩
  unfold reduce_linear
  rw [hus]
  have hrows : merge_rows us = [] := by
    unfold merge_rows
    exact merge_rows_outer_eq_nil _ _ _ hzero
  simp [hrows]

/-- C4 witness: the linear `[(1, 1, 1), (-1, 1, 1)]` reduces (unit by unit to
itself) with its single group summing to zero, and the linear reducer
returns `[(0, 0, 1)]`. -/
theorem C4_zero_reductions_shape_witness :
    reduce_linear [((1 : ℤ), 1, 1), ((-1 : ℤ), 1, 1)] = .ok [(0, 0, 1)] :=
  C4_zero_reductions_shape.2 [((1 : ℤ), 1, 1), ((-1 : ℤ), 1, 1)]
    [((1 : ℤ), 1, 1), ((-1 : ℤ), 1, 1)] (by decide)
    (fun one two => by
      simp only [groupSum]
      by_cases h : (1 : ℤ) = one ∧ (1 : ℤ) = two
      · obtain ⟨h1, h2⟩ := h
        subst h1
        subst h2
        simp
      · simp [h])

/-- C5 (amended): every linear returned by the linear reducer is sorted
ascending by the radicand column — not by the claimed (index, radicand) key:
the two `argsort` passes run the index column first and the radicand column
last, so the final order is radicand-major.  Only the key of that final pass
is asserted; numpy's default sort is not stable, so the code does not
guarantee any particular order among units sharing a radicand, and neither
does this theorem. -/
theorem C5_sorted_by_radicand (lin l : List Unit3)
    (h : reduce_linear lin = .ok l) : l.Sorted le_col1 := by
  unfold reduce_linear at h
  cases hus : reduce_units lin with
  | error e => rw [hus] at h; exact absurd h (by simp)
  | ok us =>
    rw [hus] at h
    dsimp only at h
    by_cases hrows : merge_rows us = []
    · rw [if_pos hrows] at h
      injection h with h'
      subst h'
      exact List.sorted_singleton _
    · rw [if_neg hrows] at h
      injection h with h'
      subst h'
      exact List.Pairwise.sublist (List.tail_sublist _)
        (List.sorted_insertionSort le_col1 _)

/-- C5 witness: the reduced linear `[(1, 2, 3), (1, 3, 2)]` is sorted
ascending by radicand. -/
theorem C5_sorted_by_radicand_witness :
    ([((1 : ℤ), 2, 3), ((1 : ℤ), 3, 2)] : List Unit3).Sorted le_col1 :=
  C5_sorted_by_radicand [((1 : ℤ), 2, 3), ((1 : ℤ), 3, 2)]
    [((1 : ℤ), 2, 3), ((1 : ℤ), 3, 2)] (by decide)

/-- The gcd helper fails closed to 1 when a zero is present. -/
theorem gcdList_of_zero_mem {l : List ℤ} (h : 0 ∈ l) : gcdList l = 1 := by
  unfold gcdList
  rw [if_pos h]

/-- The linear reducer never returns an empty linear. -/
theorem reduce_linear_ne_nil (lin l : List Unit3)
    (h : reduce_linear lin = .ok l) : l ≠ [] := by
  unfold reduce_linear at h
  cases hus : reduce_units lin with
  | error e => rw [hus] at h; exact absurd h (by simp)
  | ok us =>
    rw [hus] at h
    dsimp only at h
    by_cases hrows : merge_rows us = []
    · rw [if_pos hrows] at h
      injection h with h'
      subst h'
      simp
    · rw [if_neg hrows] at h
      injection h with h'
      subst h'
      intro hnil
      have hlen := congrArg List.length hnil
      rw [List.length_tail, List.length_insertionSort, List.length_insertionSort,
        List.length_cons] at hlen
      simp at hlen
      exact hrows hlen

/-- The correspondence step keeps the denominator length or replaces it by
a singleton. -/
theorem reduce_num_den_core_ok_den_length (a b : List Unit3) (nd : List Unit3 × List Unit3)
    (h : reduce_num_den_core a b = .ok nd) : nd.2.length = b.length ∨ nd.2.length = 1 := by
  unfold reduce_num_den_core at h
  split at h
  · split at h
    · split at h
      · exact absurd h (by simp)
      · dsimp only at h
        split at h
        · injection h with h'
          subst h'
          right
          rfl
        · injection h with h'
          subst h'
          right
          rfl
      · injection h with h'
        subst h'
        left
        rfl
    · injection h with h'
      subst h'
      left
      rfl
  · injection h with h'
    subst h'
    left
    rfl

/-- Cross-reduction keeps the denominator length or replaces it by a
singleton. -/
theorem reduce_num_den_ok_den_length (a b : List Unit3) (nd : List Unit3 × List Unit3)
    (h : reduce_num_den a b = .ok nd) : nd.2.length = b.length ∨ nd.2.length = 1 := by
  unfold reduce_num_den at h
  dsimp only at h
  split at h <;> rename_i hg
  · rcases reduce_num_den_core_ok_den_length _ _ nd h with hl | hl
    · left
      rw [hl, List.length_map]
    · right
      exact hl
  · exact reduce_num_den_core_ok_den_length _ _ nd h

/-- Rationalization keeps a nonempty denominator nonempty. -/
theorem rationalize_den_ne_nil (a den : List Unit3) (nd : List Unit3 × List Unit3)
    (hden : den ≠ []) (h : rationalize_num_den a den = .ok nd) : nd.2 ≠ [] := by
  rcases den with _ | ⟨d, rest1⟩
  · exact absurd rfl hden
  rcases rest1 with _ | ⟨d1, rest⟩
  · simp only [rationalize_num_den] at h
    cases hr : reduce_linear (linears_product a [((1 : ℤ), d.2.1, d.2.2 - 1)]) with
    | error e => rw [hr] at h; exact absurd h (by simp)
    | ok num2 =>
      rw [hr] at h
      injection h with h'
      subst h'
      simp
  · simp only [rationalize_num_den] at h
    split at h
    · cases hr : reduce_linear (linears_product a (linear_conjugate (d :: d1 :: rest))) with
      | error e => rw [hr] at h; exact absurd h (by simp)
      | ok num2 =>
        rw [hr] at h
        injection h with h'
        subst h'
        simp
    · injection h with h'
      subst h'
      simp

/-- The denominator part returned by `__parse_num_den` is never empty. -/
theorem parse_num_den_den_ne_nil (num den : List Unit3)
    (nd : List Unit3 × List Unit3)
    (h : parse_num_den num den = .ok nd) : nd.2 ≠ [] := by
  unfold parse_num_den at h
  cases hn : reduce_linear num with
  | error e => rw [hn] at h; exact absurd h (by simp)
  | ok num1 =>
    rw [hn] at h
    cases hd : reduce_linear den with
    | error e => rw [hd] at h; exact absurd h (by simp)
    | ok den1 =>
      rw [hd] at h
      dsimp only at h
      have hden1 : den1 ≠ [] := reduce_linear_ne_nil den den1 hd
      cases hrd : reduce_num_den num1 den1 with
      | error e => rw [hrd] at h; exact absurd h (by simp)
      | ok nd0 =>
        rw [hrd] at h
        dsimp only at h
        have hnd0 : nd0.2 ≠ [] := by
          rcases reduce_num_den_ok_den_length num1 den1 nd0 hrd with hl | hl
          · intro hnil
            rw [hnil] at hl
            exact hden1 (List.length_eq_zero.mp hl.symm)
          · intro hnil
            rw [hnil] at hl
            simp at hl
        split at h
        · exact rationalize_den_ne_nil nd0.1 nd0.2 nd hnd0 h
        · injection h with h'
          subst h'
          exact hnd0

/-- Cross-reducing any numerator against the zero denominator linear either
raises the zero-division error (inside `are_proportional`, when the patterns
happen to match) or returns its arguments unchanged: the coefficient gcd is
forced to 1 by the zero coefficient. -/
theorem reduce_num_den_zero_den (num1 : List Unit3) :
    reduce_num_den num1 [((0 : ℤ), (0 : ℤ), (1 : ℤ))] = .error .zeroDivision ∨
    reduce_num_den num1 [((0 : ℤ), (0 : ℤ), (1 : ℤ))] =
      .ok (num1, [((0 : ℤ), (0 : ℤ), (1 : ℤ))]) := by
  have hg : gcdList (num1.map (fun u => u.1) ++
      [((0 : ℤ), (0 : ℤ), (1 : ℤ))].map (fun u => u.1)) = 1 := by
    apply gcdList_of_zero_mem
    simp
  unfold reduce_num_den
  dsimp only
  rw [hg]
  simp only [ne_eq, not_true_eq_false, if_false, ite_false]
  unfold reduce_num_den_core
  by_cases hlen : num1.length = ([((0 : ℤ), (0 : ℤ), (1 : ℤ))] : List Unit3).length
  · rw [if_pos hlen]
    by_cases hpat : num1.map (fun u => u.2) =
        ([((0 : ℤ), (0 : ℤ), (1 : ℤ))] : List Unit3).map (fun u => u.2)
    · rw [if_pos hpat]
      have hprop : are_proportional (num1.map fun u => u.1)
          (([((0 : ℤ), (0 : ℤ), (1 : ℤ))] : List Unit3).map fun u => u.1) =
          .error .zeroDivision := by
        unfold are_proportional
        rw [if_pos]
        rfl
      rw [hprop]
      exact Or.inl rfl
    · rw [if_neg hpat]
      exact Or.inr rfl
  · rw [if_neg hlen]
    exact Or.inr rfl

/-- C6: constructing a real number whose raw denominator reduces to the zero
linear fails with the zero-division error (Python `ZeroDivisionError`, the
spec's `DivisionByZero`), provided the numerator itself reduces; and no
successfully reduced real number has a zero denominator: the first unit of
the returned denominator always has a nonzero coefficient, so the
denominator is never the zero linear. -/
theorem C6_zero_denominator_rejected :
    (∀ num den num1 : List Unit3,
      reduce_linear num = .ok num1 →
      reduce_linear den = .ok [((0 : ℤ), (0 : ℤ), (1 : ℤ))] →
      reduce_rn num den = .error .zeroDivision) ∧
    (∀ num den : List Unit3, ∀ res : List Unit3 × List Unit3,
      reduce_rn num den = .ok res → (res.2.headI).1 ≠ 0) := by
  constructor
  · intro num den num1 hnum hden
    unfold reduce_rn parse_num_den
    rw [hnum, hden]
    dsimp only
    rcases reduce_num_den_zero_den num1 with hA | hA
    · rw [hA]
    · rw [hA]
      dsimp only
      rw [if_neg (by decide)]
      simp
  · intro num den res h
    unfold reduce_rn at h
    cases hp : parse_num_den num den with
    | error e => rw [hp] at h; exact absurd h (by simp)
    | ok nd =>
      rw [hp] at h
      dsimp only at h
      by_cases hd0 : (nd.2.headI).1 = 0
      · rw [if_pos hd0] at h
        exact absurd h (by simp)
      · rw [if_neg hd0] at h
        by_cases hn0 : (nd.1.headI).1 = 0
        · rw [if_pos hn0] at h
          by_cases h3 : nd.1.length = 3
          · rw [if_pos h3] at h
            injection h with h'
            subst h'
            simp
          · rw [if_neg h3] at h
            injection h with h'
            subst h'
            simp
        · rw [if_neg hn0] at h
          injection h with h'
          subst h'
          unfold fill_size_difference
          by_cases hlen : nd.1.length = nd.2.length
          · rw [if_pos hlen]
            exact hd0
          · rw [if_neg hlen]
            have hne := parse_num_den_den_ne_nil num den nd hp
            cases nd2eq : nd.2 with
            | nil => exact absurd nd2eq hne
            | cons a t =>
              rw [nd2eq] at hd0
              simpa using hd0

/-- The gcd fold divides its seed. -/
theorem gcd_foldl_dvd_seed :
    ∀ (xs : List ℤ) (x : ℤ), xs.foldl (fun a b => (Int.gcd a b : ℤ)) x ∣ x
  | [], _ => dvd_refl _
  | b :: bs, x =>
    dvd_trans (gcd_foldl_dvd_seed bs ((Int.gcd x b : ℤ))) Int.gcd_dvd_left

/-- The gcd fold divides every element it folds over, its seed included. -/
theorem gcd_foldl_dvd :
    ∀ (xs : List ℤ) (x y : ℤ), y ∈ x :: xs →
      xs.foldl (fun a b => (Int.gcd a b : ℤ)) x ∣ y := by
  intro xs
  induction xs with
  | nil =>
    intro x y hy
    rcases List.mem_cons.mp hy with rfl | hy
    · exact dvd_refl _
    · exact absurd hy (List.not_mem_nil _)
  | cons b bs ih =>
    intro x y hy
    rcases List.mem_cons.mp hy with rfl | hy
    · exact dvd_trans (gcd_foldl_dvd_seed bs ((Int.gcd y b : ℤ))) Int.gcd_dvd_left
    · rcases List.mem_cons.mp hy with rfl | hy
      · exact dvd_trans (gcd_foldl_dvd_seed bs ((Int.gcd x y : ℤ))) Int.gcd_dvd_right
      · exact ih ((Int.gcd x b : ℤ)) y (List.mem_cons_of_mem _ hy)

/-- The gcd fold over a nonempty list is nonnegative. -/
theorem gcd_foldl_nonneg :
    ∀ (xs : List ℤ) (x : ℤ), xs ≠ [] →
      0 ≤ xs.foldl (fun a b => (Int.gcd a b : ℤ)) x
  | [], _, h => absurd rfl h
  | [b], x, _ => by
    simp only [List.foldl]
    exact Int.natCast_nonneg _
  | b :: c :: cs, x, _ => by
    have h := gcd_foldl_nonneg (c :: cs) ((Int.gcd x b : ℤ)) (by simp)
    simpa only [List.foldl] using h

/-- Every factor yielded by the trial-division loop is prime, provided no
candidate below `i` divides `n` (soundness; it does not depend on the fuel
sufficing). -/
theorem fz_gen_prime :
    ∀ (fuel : ℕ), ∀ (n i : ℕ), 2 ≤ i →
      (∀ d, 2 ≤ d → d < i → ¬ d ∣ n) →
      ∀ p ∈ fz_gen fuel n i, p.Prime := by
  intro fuel
  induction fuel with
  | zero =>
    intro n i _ _ p hp
    simp [fz_gen] at hp
  | succ fuel ih =>
    intro n i h2 hinv p hp
    rw [fz_gen] at hp
    by_cases hn1 : n ≤ 1
    · rw [if_pos hn1] at hp
      simp at hp
    · rw [if_neg hn1] at hp
      by_cases hsq : n < i * i
      · rw [if_pos hsq] at hp
        simp only [List.mem_singleton] at hp
        subst hp
        by_contra hnp
        obtain ⟨m, hmdvd, hm2, hmlt⟩ := Nat.exists_dvd_of_not_prime2 (by omega) hnp
        obtain ⟨q, hq, hqm⟩ := Nat.exists_prime_and_dvd (by omega : m ≠ 1)
        have hqn : q ∣ p := dvd_trans hqm hmdvd
        have hiq : i ≤ q := by
          by_contra hlt
          exact hinv q hq.two_le (by omega) hqn
        set k := p / m with hk
        have hmk : m * k = p := by
          rw [hk, Nat.mul_div_cancel' hmdvd]
        have hk2 : 2 ≤ k := by
          rcases Nat.lt_or_ge k 2 with hlt | hge
          · interval_cases k <;> omega
          · exact hge
        obtain ⟨q', hq', hq'k⟩ := Nat.exists_prime_and_dvd (by omega : k ≠ 1)
        have hq'n : q' ∣ p := by
          rw [← hmk]
          exact Dvd.dvd.mul_left hq'k m
        have hiq' : i ≤ q' := by
          by_contra hlt
          exact hinv q' hq'.two_le (by omega) hq'n
        have hqle : q ≤ m := Nat.le_of_dvd (by omega) hqm
        have hq'le : q' ≤ k := Nat.le_of_dvd (by omega) hq'k
        have : i * i ≤ p := by
          calc i * i ≤ q * q' := Nat.mul_le_mul hiq hiq'
          _ ≤ m * k := Nat.mul_le_mul hqle hq'le
          _ = p := hmk
        omega
      · rw [if_neg hsq] at hp
        by_cases hmod : n % i = 0
        · rw [if_pos hmod] at hp
          have hidvd : i ∣ n := Nat.dvd_iff_mod_eq_zero.mpr hmod
          rcases List.mem_cons.mp hp with rfl | hp2
          · by_contra hnp
            obtain ⟨m, hmdvd, hm2, hmlt⟩ := Nat.exists_dvd_of_not_prime2 h2 hnp
            exact hinv m hm2 hmlt (dvd_trans hmdvd hidvd)
          · refine ih (n / i) i h2 ?_ p hp2
            intro d hd2 hdi hddvd
            refine hinv d hd2 hdi ?_
            have : n / i * i = n := Nat.div_mul_cancel hidvd
            rw [← this]
            exact Dvd.dvd.mul_right hddvd i
        · rw [if_neg hmod] at hp
          refine ih n (i + 1) (by omega) ?_ p hp
          intro d hd2 hdi hddvd
          rcases Nat.lt_succ_iff_lt_or_eq.mp hdi with hlt | rfl
          · exact hinv d hd2 hlt hddvd
          · exact hmod (Nat.dvd_iff_mod_eq_zero.mp hddvd)

/-- For a radicand of absolute value at least 2, every stored factor is
prime with a positive multiplicity. -/
theorem factorizedList_prime_pos (n : ℤ) (hn : 2 ≤ n.natAbs) :
    ∀ fe ∈ factorizedList n, fe.1.Prime ∧ 1 ≤ fe.2 := by
  intro fe hfe
  unfold factorizedList at hfe
  rw [if_neg (by omega)] at hfe
  simp only [List.mem_map] at hfe
  obtain ⟨p, hp, rfl⟩ := hfe
  have hpmem : p ∈ fz_gen (n.natAbs + 2) n.natAbs 2 := List.mem_dedup.mp hp
  constructor
  · exact fz_gen_prime _ n.natAbs 2 (le_refl 2) (fun d hd2 hd _ => absurd hd2 (by omega))
      p hpmem
  · have := List.count_pos_iff.mpr hpmem
    omega

/-- The stored factors of a radicand of absolute value at least 2 are
pairwise distinct. -/
theorem factorizedList_keys_nodup (n : ℤ) (hn : 2 ≤ n.natAbs) :
    ((factorizedList n).map Prod.fst).Nodup := by
  unfold factorizedList
  rw [if_neg (by omega)]
  rw [List.map_map]
  have : (Prod.fst ∘ fun p => (p, ((fz_gen (n.natAbs + 2) n.natAbs 2).count p : ℤ))) =
      fun p => p := rfl
  rw [this]
  simpa using List.nodup_dedup _

/-- The list part of the extraction loop transforms each exponent
independently of the coefficient threading. -/
theorem extract_loop_fst (j : ℤ) :
    ∀ (l : List (ℕ × ℤ)) (c : Frac),
      (extract_loop j l c).1 =
        l.map (fun fe => (fe.1, if |j| < fe.2 then Int.fmod fe.2 j else fe.2)) := by
  intro l
  induction l with
  | nil => intro c; rfl
  | cons fe rest ih =>
    intro c
    obtain ⟨f, e⟩ := fe
    by_cases h : |j| < e
    · simp only [extract_loop, if_pos h, List.map_cons, ih]
    · simp only [extract_loop, if_neg h, List.map_cons, ih]

/-- The coefficient fold underlying `build_factorized`, for nonnegative
exponents: an integer times the product of the prime powers. -/
theorem build_fold_eq :
    ∀ (l : List (ℕ × ℤ)) (a : ℕ), (∀ fe ∈ l, 0 ≤ fe.2) →
      l.foldl (fun acc fe => fmul acc (fpow fe.1 fe.2)) ((a : ℤ), (1 : ℤ)) =
        (((a * (l.map (fun fe => fe.1 ^ fe.2.toNat)).prod : ℕ) : ℤ), (1 : ℤ)) := by
  intro l
  induction l with
  | nil =>
    intro a _
    simp
  | cons fe rest ih =>
    intro a hpos
    obtain ⟨f, e⟩ := fe
    have he : 0 ≤ e := hpos (f, e) (List.mem_cons_self _ _)
    have hstep : fmul ((a : ℤ), (1 : ℤ)) (fpow f e) =
        (((a * f ^ e.toNat : ℕ) : ℤ), (1 : ℤ)) := by
      unfold fmul fpow
      rw [if_pos he]
      push_cast
      simp
    simp only [List.foldl_cons, hstep]
    rw [ih (a * f ^ e.toNat) (fun fe hfe => hpos fe (List.mem_cons_of_mem _ hfe))]
    rw [List.map_cons, List.prod_cons, Nat.mul_assoc]

/-- `build_factorized` of a list of nonnegative exponents is the product of
the prime powers. -/
theorem build_factorized_eq (l : List (ℕ × ℤ)) (h : ∀ fe ∈ l, 0 ≤ fe.2) :
    build_factorized l = (((l.map (fun fe => fe.1 ^ fe.2.toNat)).prod : ℕ) : ℤ) := by
  unfold build_factorized
  have h1 : ((1 : ℤ), (1 : ℤ)) = (((1 : ℕ) : ℤ), (1 : ℤ)) := by norm_num
  rw [h1, build_fold_eq l 1 h]
  unfold ftrunc
  simp [Int.tdiv_one]

/-- The product of listed prime powers is nonzero. -/
theorem prime_pow_prod_ne_zero (l : List (ℕ × ℤ)) (h : ∀ fe ∈ l, fe.1.Prime) :
    (l.map (fun fe => fe.1 ^ fe.2.toNat)).prod ≠ 0 := by
  induction l with
  | nil => simp
  | cons fe rest ih =>
    rw [List.map_cons, List.prod_cons]
    have hp := h fe (List.mem_cons_self _ _)
    exact Nat.mul_ne_zero (pow_ne_zero _ hp.ne_zero)
      (ih (fun g hg => h g (List.mem_cons_of_mem _ hg)))

/-- A prime absent from the listed factors does not divide the product: its
factorization exponent is zero. -/
theorem prime_pow_prod_factorization_not_mem (l : List (ℕ × ℤ)) (p : ℕ)
    (h : ∀ fe ∈ l, fe.1.Prime) (hmem : p ∉ l.map Prod.fst) :
    Nat.factorization ((l.map (fun fe => fe.1 ^ fe.2.toNat)).prod) p = 0 := by
  induction l with
  | nil => simp
  | cons fe rest ih =>
    rw [List.map_cons, List.prod_cons]
    have hp := h fe (List.mem_cons_self _ _)
    have hqne : p ≠ fe.1 := by
      intro hpq
      exact hmem (by rw [List.map_cons]; exact hpq ▸ List.mem_cons_self _ _)
    rw [Nat.factorization_mul (pow_ne_zero _ hp.ne_zero)
      (prime_pow_prod_ne_zero rest (fun g hg => h g (List.mem_cons_of_mem _ hg)))]
    rw [Finsupp.add_apply, hp.factorization_pow, Finsupp.single_eq_of_ne (Ne.symm hqne)]
    rw [ih (fun g hg => h g (List.mem_cons_of_mem _ hg))
      (fun hx => hmem (by rw [List.map_cons]; exact List.mem_cons_of_mem _ hx))]

/-- With distinct prime factors and exponents bounded by `B`, the
factorization of the product is bounded by `B` at every prime. -/
theorem prime_pow_prod_factorization_le (l : List (ℕ × ℤ)) (B : ℕ) (p : ℕ)
    (h : ∀ fe ∈ l, fe.1.Prime) (hnodup : (l.map Prod.fst).Nodup)
    (hB : ∀ fe ∈ l, fe.2.toNat ≤ B) :
    Nat.factorization ((l.map (fun fe => fe.1 ^ fe.2.toNat)).prod) p ≤ B := by
  induction l with
  | nil => simp
  | cons fe rest ih =>
    rw [List.map_cons, List.prod_cons]
    have hp := h fe (List.mem_cons_self _ _)
    have hprest : ∀ g ∈ rest, g.1.Prime := fun g hg => h g (List.mem_cons_of_mem _ hg)
    rw [Nat.factorization_mul (pow_ne_zero _ hp.ne_zero) (prime_pow_prod_ne_zero rest hprest)]
    rw [Finsupp.add_apply, hp.factorization_pow]
    rw [List.map_cons, List.nodup_cons] at hnodup
    by_cases hpq : p = fe.1
    · subst hpq
      rw [Finsupp.single_eq_same]
      rw [prime_pow_prod_factorization_not_mem rest fe.1 hprest hnodup.1]
      have := hB fe (List.mem_cons_self _ _)
      omega
    · rw [Finsupp.single_eq_of_ne (Ne.symm hpq)]
      have := ih hprest hnodup.2 (fun g hg => hB g (List.mem_cons_of_mem _ hg))
      omega

/-- A positive prime power never divides 1. -/
theorem prime_pow_not_dvd_one (p : ℕ) (hp : p.Prime) (k : ℕ) :
    ¬ ((p : ℤ) ^ (k + 1) ∣ (1 : ℤ)) := by
  intro hd
  have h1 : ((p ^ (k + 1) : ℕ) : ℤ) ∣ ((1 : ℕ) : ℤ) := by push_cast; exact hd
  have h2 : p ^ (k + 1) ∣ 1 := Int.natCast_dvd_natCast.mp h1
  have h3 : p ^ (k + 1) = 1 := Nat.dvd_one.mp h2
  exact hp.ne_one ((pow_eq_one_iff (Nat.succ_ne_zero k)).mp h3)

/-- When the fast special cases fire, the reduction body returns a unit with
radicand 1 and index 1. -/
theorem reduce_unit_core_special (c r j : ℤ)
    (h : j = 1 ∨ (r = 0 ∨ r = 1 ∨ r = -1)) :
    (reduce_unit_core c r j).2 = (1, 1) := by
  have hu1 : special_cases ((c : ℤ), (1 : ℤ)) r j =
      (fmulInt ((c : ℤ), (1 : ℤ)) r, 1, 1) := by
    unfold special_cases
    rcases h with h | h
    · rw [if_pos h]
    · by_cases hj : j = 1
      · rw [if_pos hj]
      · rw [if_neg hj, if_pos h]
  unfold reduce_unit_core
  rw [hu1]
  dsimp only
  rw [show factorizedList 1 = [((1 : ℕ), (1 : ℤ))] from by decide]
  rw [show gcdList (List.map (fun fe => fe.2) [((1 : ℕ), (1 : ℤ))] ++ [(1 : ℤ)]) = 1 from by
    decide]
  norm_num
  rfl

/-- Facts about the exponents/index gcd: it is 1 (the fail-closed zero case)
or a positive common divisor of the index and every exponent. -/
theorem gcdList_facts (E : List ℤ) (j : ℤ) (hj : 0 < j) :
    gcdList (E ++ [j]) = 1 ∨
      (0 < gcdList (E ++ [j]) ∧ gcdList (E ++ [j]) ∣ j ∧
        ∀ e ∈ E, gcdList (E ++ [j]) ∣ e) := by
  by_cases hzero : (0 : ℤ) ∈ E ++ [j]
  · exact Or.inl (gcdList_of_zero_mem hzero)
  · right
    cases E with
    | nil =>
      simp only [List.nil_append] at hzero ⊢
      unfold gcdList
      rw [if_neg hzero]
      dsimp only [List.foldl]
      exact ⟨hj, dvd_refl j, by simp⟩
    | cons e E' =>
      simp only [List.cons_append] at hzero ⊢
      unfold gcdList
      rw [if_neg hzero]
      dsimp only
      have hdv := gcd_foldl_dvd (E' ++ [j]) e
      have hnn : 0 ≤ (E' ++ [j]).foldl (fun a b => (Int.gcd a b : ℤ)) e :=
        gcd_foldl_nonneg (E' ++ [j]) e (by simp)
      have hdvj : (E' ++ [j]).foldl (fun a b => (Int.gcd a b : ℤ)) e ∣ j := by
        refine hdv j ?_
        simp
      have hne : (E' ++ [j]).foldl (fun a b => (Int.gcd a b : ℤ)) e ≠ 0 := by
        intro h0
        rw [h0] at hdvj
        exact absurd (zero_dvd_iff.mp hdvj) (by omega)
      refine ⟨by omega, hdvj, ?_⟩
      intro x hx
      rcases List.mem_cons.mp hx with rfl | hx
      · exact hdv x (List.mem_cons_self _ _)
      · refine hdv x (List.mem_cons_of_mem _ ?_)
        exact List.mem_append_left _ hx

/-- C2 (amended): for every integer unit with nonzero coefficient and
positive index that reduces without error, the reduced radicand contains no
prime factor whose exponent strictly exceeds the reduced index: the
extraction loop fires only for exponents strictly greater than the index
(`abs(unit[2]) < factorized[f]`), and a factor whose exponent equals the
index may survive in the radicand (see the counterexample `(1, 12, 2)`). -/
theorem C2_no_factor_exponent_above_index (c r j : ℤ) (cf : Frac) (r' j' : ℤ) (p : ℕ)
    (hc : c ≠ 0) (hj : 0 < j) (hp : p.Prime)
    (hok : reduce_integer_unit c r j = .ok (cf, r', j')) :
    ¬ ((p : ℤ) ^ (j'.toNat + 1) ∣ r') := by
  unfold reduce_integer_unit at hok
  rw [if_neg hc] at hok
  cases hre : radical_exc r j with
  | some e => rw [hre] at hok; exact absurd hok (by simp)
  | none =>
    rw [hre] at hok
    injection hok with hok
    have hr'eq : r' = (reduce_unit_core c r j).2.1 := by rw [hok]
    have hj'eq : j' = (reduce_unit_core c r j).2.2 := by rw [hok]
    subst hr'eq
    subst hj'eq
    clear hok
    by_cases hspecial : j = 1 ∨ (r = 0 ∨ r = 1 ∨ r = -1)
    · have hcore := reduce_unit_core_special c r j hspecial
      rw [show (reduce_unit_core c r j).2.1 = 1 from by rw [hcore]]
      rw [show (reduce_unit_core c r j).2.2 = 1 from by rw [hcore]]
      exact prime_pow_not_dvd_one p hp _
    · push_neg at hspecial
      obtain ⟨hj1, hr0, hr1, hrm1⟩ := hspecial
      have hrabs : 2 ≤ r.natAbs := by omega
      unfold reduce_unit_core
      rw [show special_cases ((c : ℤ), (1 : ℤ)) r j = (((c : ℤ), (1 : ℤ)), r, j) from by
        unfold special_cases
        rw [if_neg hj1, if_neg (by tauto)]]
      dsimp only
      set FZ := factorizedList r with hFZ
      have hFZfacts := factorizedList_prime_pos r hrabs
      have hFZnodup := factorizedList_keys_nodup r hrabs
      set G := gcdList (FZ.map (fun fe => fe.2) ++ [j]) with hG
      have hGfacts := gcdList_facts (FZ.map (fun fe => fe.2)) j hj
      set FZ2 := if G ≠ 1 then FZ.map (fun fe => (fe.1, Int.tdiv fe.2 G)) else FZ with hFZ2
      set J2 := if G ≠ 1 then Int.fdiv j G else j with hJ2
      have hJ2pos : 0 < J2 := by
        rw [hJ2]
        by_cases hg1 : G ≠ 1
        · rw [if_pos hg1]
          rcases hGfacts with h1 | ⟨hGpos, hGj, _⟩
          · exact absurd h1 hg1
          · obtain ⟨m, hm⟩ := hGj
            rw [hm, Int.mul_fdiv_cancel_left m (by omega : G ≠ 0)]
            nlinarith [hm, hGpos, hj]
        · rw [if_neg hg1]
          exact hj
      have hFZ2facts : ∀ fe ∈ FZ2, fe.1.Prime ∧ 0 ≤ fe.2 := by
        rw [hFZ2]
        by_cases hg1 : G ≠ 1
        · rw [if_pos hg1]
          intro fe hfe
          simp only [List.mem_map] at hfe
          obtain ⟨ge, hge, rfl⟩ := hfe
          obtain ⟨hprime, hepos⟩ := hFZfacts ge hge
          rcases hGfacts with h1 | ⟨hGpos, _, _⟩
          · exact absurd h1 hg1
          · exact ⟨hprime, Int.tdiv_nonneg (by omega) (le_of_lt hGpos)⟩
        · rw [if_neg hg1]
          intro fe hfe
          obtain ⟨hprime, hepos⟩ := hFZfacts fe hfe
          exact ⟨hprime, by omega⟩
      have hFZ2nodup : (FZ2.map Prod.fst).Nodup := by
        rw [hFZ2]
        by_cases hg1 : G ≠ 1
        · rw [if_pos hg1, List.map_map]
          exact hFZnodup
        · rw [if_neg hg1]
          exact hFZnodup
      rw [extract_loop_fst J2 FZ2 ((c : ℤ), (1 : ℤ))]
      set FZ3 := FZ2.map (fun fe => (fe.1, if |J2| < fe.2 then Int.fmod fe.2 J2 else fe.2))
        with hFZ3
      have hFZ3facts : ∀ fe ∈ FZ3, fe.1.Prime ∧ 0 ≤ fe.2 ∧ fe.2 ≤ J2 := by
        rw [hFZ3]
        intro fe hfe
        simp only [List.mem_map] at hfe
        obtain ⟨ge, hge, rfl⟩ := hfe
        obtain ⟨hprime, hepos⟩ := hFZ2facts ge hge
        refine ⟨hprime, ?_, ?_⟩
        · dsimp only
          by_cases hlt : |J2| < ge.2
          · rw [if_pos hlt, Int.fmod_eq_emod _ (le_of_lt hJ2pos)]
            exact Int.emod_nonneg _ (by omega)
          · rw [if_neg hlt]
            exact hepos
        · dsimp only
          by_cases hlt : |J2| < ge.2
          · rw [if_pos hlt, Int.fmod_eq_emod _ (le_of_lt hJ2pos)]
            exact le_of_lt (Int.emod_lt_of_pos _ hJ2pos)
          · rw [if_neg hlt]
            rw [abs_of_pos hJ2pos] at hlt
            omega
      have hFZ3nodup : (FZ3.map Prod.fst).Nodup := by
        rw [hFZ3, List.map_map]
        exact hFZ2nodup
      have hbuild : build_factorized FZ3 =
          (((FZ3.map (fun fe => fe.1 ^ fe.2.toNat)).prod : ℕ) : ℤ) :=
        build_factorized_eq FZ3 (fun fe hfe => (hFZ3facts fe hfe).2.1)
      have hPne : (FZ3.map (fun fe => fe.1 ^ fe.2.toNat)).prod ≠ 0 :=
        prime_pow_prod_ne_zero FZ3 (fun fe hfe => (hFZ3facts fe hfe).1)
      have hPfact : Nat.factorization ((FZ3.map (fun fe => fe.1 ^ fe.2.toNat)).prod) p ≤
          J2.toNat :=
        prime_pow_prod_factorization_le FZ3 J2.toNat p
          (fun fe hfe => (hFZ3facts fe hfe).1) hFZ3nodup
          (fun fe hfe => by have := (hFZ3facts fe hfe).2; omega)
      set R2 := if r < 0 then build_factorized FZ3 * (-1) else build_factorized FZ3
        with hR2def
      unfold special_cases
      by_cases hJ21 : J2 = 1
      · rw [if_pos hJ21]
        dsimp only
        exact prime_pow_not_dvd_one p hp _
      · rw [if_neg hJ21]
        by_cases hR2sp : R2 = 0 ∨ R2 = 1 ∨ R2 = -1
        · rw [if_pos hR2sp]
          dsimp only
          exact prime_pow_not_dvd_one p hp _
        · rw [if_neg hR2sp]
          dsimp only
          intro hd
          have hdP : (p : ℤ) ^ (J2.toNat + 1) ∣
              (((FZ3.map (fun fe => fe.1 ^ fe.2.toNat)).prod : ℕ) : ℤ) := by
            rw [hR2def] at hd
            by_cases hrneg : r < 0
            · rw [if_pos hrneg, hbuild, mul_neg_one] at hd
              exact (dvd_neg).mp hd
            · rw [if_neg hrneg, hbuild] at hd
              exact hd
          have hdn : p ^ (J2.toNat + 1) ∣ (FZ3.map (fun fe => fe.1 ^ fe.2.toNat)).prod := by
            rw [show ((p : ℤ) ^ (J2.toNat + 1)) = ((p ^ (J2.toNat + 1) : ℕ) : ℤ) from by
              push_cast; ring] at hdP
            exact Int.natCast_dvd_natCast.mp hdP
          have hle := (hp.pow_dvd_iff_le_factorization hPne).mp hdn
          omega

/-- C2 witness: the unit `(1, 8, 2)` reduces to `(2, 2, 2)` (radicand 2,
index 2), and no cube of the prime 2 divides the reduced radicand. -/
theorem C2_no_factor_exponent_above_index_witness :
    ¬ (((2 : ℕ) : ℤ) ^ ((2 : ℤ).toNat + 1) ∣ (2 : ℤ)) :=
  C2_no_factor_exponent_above_index 1 8 2 ((2 : ℤ), (1 : ℤ)) 2 2 2
    (by decide) (by decide) (by norm_num) (by decide)

/-- C6 witness: the raw denominator `[(0, 1, 1)]` reduces to the zero linear
and construction fails with the zero-division error. -/
theorem C6_zero_denominator_rejected_witness :
    reduce_rn [((1 : ℤ), 1, 1)] [((0 : ℤ), 1, 1)] = .error .zeroDivision :=
  C6_zero_denominator_rejected.1 [((1 : ℤ), 1, 1)] [((0 : ℤ), 1, 1)]
    [((1 : ℤ), 1, 1)] (by decide) (by decide)
